import Mathlib

/-!
Verification of the bone-renamer add-on (`src/bone-renamer.py`).

Strings are modelled as `List Char`.  The three pure helpers
`get_incremented_name`, `move_lr_to_end` and `swap_lr_in_name` and the two
command handlers `rename_children_bones` and `alphabetical_rename` are
translated from the Python source.  `bpy` scene state (bone names, the
selection, the active bone, the scene properties) is made explicit:
bone structure is a tree of integer ids, names live in a map from ids to
strings, and the scene properties become fields of a context record.
-/

set_option maxRecDepth 4000

/-- `True` for ASCII decimal digits, the characters matched by the
regular expressions `\d+` and `\d` in the source. -/
def isDig (c : Char) : Bool := 48 ≤ c.toNat && c.toNat ≤ 57

/-- The ASCII digit character for a value below ten. -/
def digitChar (n : Nat) : Char :=
  match n with
  | 0 => '0' | 1 => '1' | 2 => '2' | 3 => '3' | 4 => '4'
  | 5 => '5' | 6 => '6' | 7 => '7' | 8 => '8' | 9 => '9'
  | _ => '*'

/-- Numeric value of an ASCII digit character. -/
def digitToNat (c : Char) : Nat := c.toNat - 48

/-- Decimal value of a digit string, as computed by Python `int(...)`
on a string of ASCII digits (leading zeros allowed). -/
def natOfDigits (l : List Char) : Nat :=
  l.foldl (fun a c => 10 * a + digitToNat c) 0

/-- Fuel-driven worker for `natToDigits`; the fuel bounds the number of
divisions by ten. -/
def natToDigitsAux : Nat → Nat → List Char → List Char
  | 0, _, acc => acc
  | fuel + 1, n, acc =>
      if n < 10 then digitChar n :: acc
      else natToDigitsAux fuel (n / 10) (digitChar (n % 10) :: acc)

/-- Decimal rendering of a natural number, as Python `str(...)` renders a
nonnegative integer (no leading zeros, `0` renders as `"0"`). -/
def natToDigits (n : Nat) : List Char := natToDigitsAux (n + 1) n []

/-- Python `str.zfill`: left-pad with `'0'` to the requested width
(for the sign-free strings produced by `str` on nonnegative integers). -/
def zfill (l : List Char) (w : Nat) : List Char :=
  List.replicate (w - l.length) '0' ++ l

/-- Worker for `digitRuns`: `acc` holds the reversed digit run currently
being scanned. -/
def digitRunsAux : List Char → List Char → List (List Char)
  | [], acc => if acc.isEmpty then [] else [acc.reverse]
  | c :: cs, acc =>
      if isDig c then digitRunsAux cs (c :: acc)
      else (if acc.isEmpty then [] else [acc.reverse]) ++ digitRunsAux cs []

/-- The maximal runs of ASCII decimal digits of a string, left to right:
the list produced by `re.findall(r'\d+', s)` in the source. -/
def digitRuns (s : List Char) : List (List Char) := digitRunsAux s []

/-- Python `s.replace(old, new, 1)` for a nonempty `old`: replace the
first (leftmost) occurrence of `old` by `new`; a string without an
occurrence is returned unchanged. -/
def replaceFirst : List Char → List Char → List Char → List Char
  | [], _, _ => []
  | c :: cs, pat, rep =>
      if pat.isPrefixOf (c :: cs) then rep ++ (c :: cs).drop pat.length
      else c :: replaceFirst cs pat rep

/-- Worker for `replaceAll`.  Every step either consumes the head or a
nonempty prefix, so fuel equal to the string's length suffices; the fuel
only makes the recursion structural. -/
def replaceAllAux (pat rep : List Char) : Nat → List Char → List Char
  | 0, s => s
  | _ + 1, [] => []
  | fuel + 1, c :: cs =>
      if pat.isPrefixOf (c :: cs) && !pat.isEmpty then
        rep ++ replaceAllAux pat rep fuel ((c :: cs).drop pat.length)
      else c :: replaceAllAux pat rep fuel cs

/-- Python `s.replace(old, new)` for a nonempty `old`: replace every
occurrence of `old` by `new`, scanning left to right without overlap.
(The source only ever passes the nonempty literals `"_L_"` and `"_R_"`;
Python's special behaviour on an empty `old` is not reproduced.) -/
def replaceAll (pat rep s : List Char) : List Char :=
  replaceAllAux pat rep s.length s

/-- Python's substring test `pat in s`. -/
def containsSub : List Char → List Char → Bool
  | pat, [] => pat.isEmpty
  | pat, c :: cs => pat.isPrefixOf (c :: cs) || containsSub pat cs

/-- Strict lexicographic order on strings by code point, Python's `<`
on `str` restricted to the characters that occur here. -/
def lexLt : List Char → List Char → Bool
  | [], [] => false
  | [], _ :: _ => true
  | _ :: _, [] => false
  | a :: as, b :: bs =>
      if a.toNat < b.toNat then true
      else if a.toNat = b.toNat then lexLt as bs
      else false

/-- Non-strict lexicographic order on strings by code point, the order
Python's `list.sort(key=lambda x: x.name)` sorts by. -/
def lexLe : List Char → List Char → Bool
  | [], _ => true
  | _ :: _, [] => false
  | a :: as, b :: bs =>
      if a.toNat < b.toNat then true
      else if a.toNat = b.toNat then lexLe as bs
      else false

/-- Strict well-order used as the termination measure of the incremented
name generator: shorter strings first, then lexicographic. -/
def strLtP (s t : List Char) : Prop :=
  s.length < t.length ∨ (s.length = t.length ∧ lexLt s t = true)

instance (s t : List Char) : Decidable (strLtP s t) := by
  unfold strLtP; infer_instance

/-- One step of `get_incremented_name` before the collision check: take the
last digit run, add the increment, zero-pad to the run's width, substitute
at the first occurrence of the run's digit substring. -/
def stepName (name : List Char) (incr : Nat) : List Char :=
  match (digitRuns name).getLast? with
  | none => name
  | some last_match =>
      replaceFirst name last_match
        (zfill (natToDigits (natOfDigits last_match + incr)) last_match.length)

/-- `get_incremented_name` from the source, with the live selection made
explicit as the list of the currently selected bones' names and with an
explicit fuel bound on the collision-retry recursion (`none` on fuel
exhaustion; `ginFuel_sufficient` below shows fuel `sel.length + 1` never
exhausts when the name contains a digit and the increment is positive). -/
def ginFuel : Nat → List (List Char) → List Char → Nat → Option (List Char)
  | 0, _, _, _ => none
  | fuel + 1, sel, bone_name, increment =>
      match (digitRuns bone_name).getLast? with
      | none => some bone_name
      | some last_match =>
          let new_number :=
            zfill (natToDigits (natOfDigits last_match + increment)) last_match.length
          let new_name := replaceFirst bone_name last_match new_number
          if new_name ∈ sel then ginFuel fuel sel new_name 1
          else some new_name

/-- `get_incremented_name(bone_name, increment)` reading the selected
bones' names from `sel`.  The fuel default is provably sufficient for
every call the source makes, so the `getD` fallback is never reached. -/
def get_incremented_name (sel : List (List Char)) (bone_name : List Char)
    (increment : Nat) : List Char :=
  (ginFuel (sel.length + 1) sel bone_name increment).getD bone_name

/-- `move_lr_to_end(name)` from the source. -/
def move_lr_to_end (name : List Char) : List Char :=
  if containsSub ("_L_".toList) name || ("_L".toList).isSuffixOf name then
    replaceAll ("_L_".toList) ("_".toList) name ++ "_L".toList
  else if containsSub ("_R_".toList) name || ("_R".toList).isSuffixOf name then
    replaceAll ("_R_".toList) ("_".toList) name ++ "_R".toList
  else name

/-- `swap_lr_in_name(name)` from the source; `name.take (name.length - 2)`
is Python's `name[:-2]`. -/
def swap_lr_in_name (name : List Char) : List Char :=
  if ("_L".toList).isSuffixOf name then
    name.take (name.length - 2) ++ "_R".toList
  else if ("_R".toList).isSuffixOf name then
    name.take (name.length - 2) ++ "_L".toList
  else name

/-- A bone of the armature: its id, its `select` flag, and its direct
children.  Only names mutate, so names are kept outside the tree, in a
map from ids. -/
inductive BoneT where
  | mk : Nat → Bool → List BoneT → BoneT

def BoneT.id : BoneT → Nat
  | .mk i _ _ => i

def BoneT.sel : BoneT → Bool
  | .mk _ s _ => s

def BoneT.children : BoneT → List BoneT
  | .mk _ _ cs => cs

mutual

/-- Preorder traversal of a forest of bones. -/
def preorderList : List BoneT → List BoneT
  | [] => []
  | b :: bs => preorderBone b ++ preorderList bs

/-- Preorder traversal of a bone's subtree, the bone itself first. -/
def preorderBone : BoneT → List BoneT
  | .mk i s cs => .mk i s cs :: preorderList cs

end

/-- `bone.children_recursive`: all descendants of a bone, here in
preorder (the host's traversal order). -/
def descendants (b : BoneT) : List BoneT := preorderList b.children

/-- The mutable name state: bone id to current name. -/
def NameMap : Type := Nat → List Char

/-- Assignment `bone.name = n`. -/
def setName (σ : NameMap) (i : Nat) (n : List Char) : NameMap :=
  fun j => if j = i then n else σ j

/-- The names of `bpy.context.selected_bones` under the current state. -/
def selectedNames (sel : List BoneT) (σ : NameMap) : List (List Char) :=
  sel.map (fun b => σ b.id)

/-- The scene and context state a command reads: edit-mode flag, the
three scene properties, the active bone, the selected bones, and the
current names. -/
structure Ctx where
  isEditMode : Bool
  new_name_value : List Char
  only_root_bone_selected : Bool
  moveLrFlag : Bool
  active_bone : Option BoneT
  selected_bones : List BoneT
  names : NameMap

/-- Result status of a command handler. -/
inductive Outcome where
  | finished
  | cancelled
  | noneRet
  | indexError
deriving DecidableEq

/-- A command's result: status, final names, reported error messages. -/
structure CmdResult where
  status : Outcome
  names : NameMap
  reports : List (List Char)

def msgEmptyOrNoDigit : List Char :=
  "The input name is either empty or does not contain a number.".toList

def msgEmptyName : List Char := "The input name is empty.".toList

def msgNoActive : List Char := "No active bone selected.".toList

/-- The inner loop `for i, child in enumerate(bone.children_recursive):
child.name = get_incremented_name(bone.name, i+1)`.  The selection's
names and the parent's name are re-read from the live state at every
iteration, exactly as the source does. -/
def assignDescendants (sel : List BoneT) (bid : Nat) :
    List BoneT → Nat → NameMap → NameMap
  | [], _, σ => σ
  | d :: rest, j, σ =>
      assignDescendants sel bid rest (j + 1)
        (setName σ d.id (get_incremented_name (selectedNames sel σ) (σ bid) (j + 1)))

/-- The body of `rename_children_bones`' loop over the selected bones. -/
def rcbLoop (sel : List BoneT) (nn : List Char) :
    List BoneT → NameMap → NameMap
  | [], σ => σ
  | b :: rest, σ =>
      if b.sel then
        rcbLoop sel nn rest
          (assignDescendants sel b.id (descendants b) 0 (setName σ b.id nn))
      else rcbLoop sel nn rest σ

/-- `rename_children_bones(self, context)` from the source.  A context
that is not in edit mode falls through Python's `if` and returns `None`
(`Outcome.noneRet`). -/
def rename_children_bones (ctx : Ctx) : CmdResult :=
  if ctx.isEditMode then
    if ctx.new_name_value.isEmpty || !(ctx.new_name_value.any isDig) then
      ⟨.cancelled, ctx.names, [msgEmptyOrNoDigit]⟩
    else
      ⟨.finished, rcbLoop ctx.selected_bones ctx.new_name_value
          ctx.selected_bones ctx.names, []⟩
  else ⟨.noneRet, ctx.names, []⟩

/-- `string.ascii_uppercase`. -/
def ascii_uppercase : List Char := "ABCDEFGHIJKLMNOPQRSTUVWXYZ".toList

/-- The name `f"{new_name}_{string.ascii_uppercase[i]}_00"` assigned to
the batch bone at sorted position `i` (only evaluated under the guard
`i < 26`; Python raises `IndexError` otherwise). -/
def seqName (nn : List Char) (i : Nat) : List Char :=
  nn ++ '_' :: ascii_uppercase.getD i 'A' :: '_' :: '0' :: '0' :: []

/-- The loop of `alphabetical_rename` over the sorted batch.  Python's
`string.ascii_uppercase[i]` raises `IndexError` as soon as `i` reaches
26, aborting the command and keeping every mutation made so far. -/
def alphaLoop (sel : List BoneT) (nn : List Char) (mlr : Bool) :
    List BoneT → Nat → NameMap → Outcome × NameMap
  | [], _, σ => (.finished, σ)
  | b :: rest, i, σ =>
      if i < 26 then
        let bone_name := seqName nn i
        let bone_name := if mlr then move_lr_to_end bone_name else bone_name
        alphaLoop sel nn mlr rest (i + 1)
          (assignDescendants sel b.id (descendants b) 0 (setName σ b.id bone_name))
      else (.indexError, σ)

/-- The state after the optional root rename: under the "only root bone
selected" flag the active bone is renamed to `new_name + "_Root"`,
suffix-relocated when the move flag is set. -/
def rootRenamed (ctx : Ctx) (root : BoneT) : NameMap :=
  if ctx.only_root_bone_selected then
    setName ctx.names root.id
      (if ctx.moveLrFlag then move_lr_to_end (ctx.new_name_value ++ "_Root".toList)
       else ctx.new_name_value ++ "_Root".toList)
  else ctx.names

/-- The comparison `selected_bones.sort(key=lambda x: x.name)` sorts by:
current name (after the optional root rename), lexicographically. -/
def sortKey (ctx : Ctx) (root : BoneT) (a b : BoneT) : Prop :=
  lexLe (rootRenamed ctx root a.id) (rootRenamed ctx root b.id) = true

instance (ctx : Ctx) (root : BoneT) : DecidableRel (sortKey ctx root) :=
  fun a b => by unfold sortKey; infer_instance

/-- The batch `alphabetical_rename` processes: the active bone's direct
children (not the raw selection), sorted by their current name.  Python's
`list.sort` is a stable ascending sort, and a stable sort's output is
uniquely determined by the key order, so the stable `insertionSort`
models it exactly. -/
def alphaBatch (ctx : Ctx) (root : BoneT) : List BoneT :=
  List.insertionSort (sortKey ctx root) root.children

/-- `alphabetical_rename(self, context)` from the source. -/
def alphabetical_rename (ctx : Ctx) : CmdResult :=
  if ctx.isEditMode then
    if ctx.new_name_value.isEmpty then ⟨.cancelled, ctx.names, [msgEmptyName]⟩
    else
      match ctx.active_bone with
      | some root =>
          let r := alphaLoop ctx.selected_bones ctx.new_name_value ctx.moveLrFlag
            (alphaBatch ctx root) 0 (rootRenamed ctx root)
          ⟨r.1, r.2, []⟩
      | none => ⟨.cancelled, ctx.names, [msgNoActive]⟩
  else ⟨.noneRet, ctx.names, []⟩

/-- `SwapLRInNameOperator.execute`: apply `swap_lr_in_name` to the
input-field text and write it back; always `FINISHED`. -/
def swapLrExecute (ctx : Ctx) : Outcome × Ctx :=
  (.finished, { ctx with new_name_value := swap_lr_in_name ctx.new_name_value })

/-! ### Concrete scenes used to instantiate the theorems -/

/-- A root with the three children of the spec's alphabetical example,
currently named `zeta`, `alpha` and `mid`. -/
def exRoot5 : BoneT :=
  BoneT.mk 0 true [BoneT.mk 1 true [], BoneT.mk 2 true [], BoneT.mk 3 true []]

def exCtx5 : Ctx where
  isEditMode := true
  new_name_value := "finger".toList
  only_root_bone_selected := false
  moveLrFlag := false
  active_bone := some exRoot5
  selected_bones := []
  names := fun i =>
    if i = 1 then ("zeta".toList)
    else if i = 2 then ("alpha".toList)
    else if i = 3 then ("mid".toList)
    else []

/-- An edit-mode scene with no active bone. -/
def exCtx6 : Ctx where
  isEditMode := true
  new_name_value := "finger".toList
  only_root_bone_selected := false
  moveLrFlag := false
  active_bone := none
  selected_bones := []
  names := fun _ => []

/-- An edit-mode scene with an empty input name. -/
def exCtx8 : Ctx where
  isEditMode := true
  new_name_value := []
  only_root_bone_selected := false
  moveLrFlag := false
  active_bone := none
  selected_bones := [BoneT.mk 1 true []]
  names := fun i => if i = 1 then ("old".toList) else []

/-- A root with a single child, for a completed alphabetical run. -/
def exRoot3 : BoneT := BoneT.mk 0 true [BoneT.mk 1 true []]

def exCtx3 : Ctx where
  isEditMode := true
  new_name_value := "w1".toList
  only_root_bone_selected := false
  moveLrFlag := false
  active_bone := some exRoot3
  selected_bones := []
  names := fun _ => []

/-- Twenty-seven leaf children with ids 1..27, named by their decimal id. -/
def exChildren27 : List BoneT := (List.range 27).map (fun i => BoneT.mk (i + 1) true [])

def exRoot27 : BoneT := BoneT.mk 0 true exChildren27

def exCtx27 : Ctx where
  isEditMode := true
  new_name_value := "base".toList
  only_root_bone_selected := false
  moveLrFlag := false
  active_bone := some exRoot27
  selected_bones := []
  names := fun i => natToDigits i

/-! ### Arithmetic facts about digit strings -/

theorem isDig_digitChar {n : Nat} (h : n < 10) : isDig (digitChar n) = true := by
  interval_cases n <;> decide

theorem digitToNat_digitChar {n : Nat} (h : n < 10) : digitToNat (digitChar n) = n := by
  interval_cases n <;> decide

theorem digitToNat_le_nine {c : Char} (h : isDig c = true) : digitToNat c ≤ 9 := by
  simp only [isDig, Bool.and_eq_true, decide_eq_true_eq] at h
  simp only [digitToNat]
  omega

theorem natOfDigits_foldl_init (l : List Char) (a : Nat) :
    l.foldl (fun a c => 10 * a + digitToNat c) a
      = a * 10 ^ l.length + l.foldl (fun a c => 10 * a + digitToNat c) 0 := by
  induction l generalizing a with
  | nil => simp
  | cons c t ih =>
      simp only [List.foldl_cons, List.length_cons]
      rw [ih (10 * a + digitToNat c), ih (10 * 0 + digitToNat c)]
      ring

theorem natOfDigits_cons (c : Char) (l : List Char) :
    natOfDigits (c :: l) = digitToNat c * 10 ^ l.length + natOfDigits l := by
  simp only [natOfDigits, List.foldl_cons]
  rw [natOfDigits_foldl_init]
  ring_nf

theorem natOfDigits_append (l m : List Char) :
    natOfDigits (l ++ m) = natOfDigits l * 10 ^ m.length + natOfDigits m := by
  simp only [natOfDigits, List.foldl_append]
  rw [natOfDigits_foldl_init]

theorem natOfDigits_lt (l : List Char) (h : ∀ c ∈ l, isDig c = true) :
    natOfDigits l < 10 ^ l.length := by
  induction l with
  | nil => simp [natOfDigits]
  | cons c t ih =>
      have hd := digitToNat_le_nine (h c (by simp))
      have ht := ih (fun x hx => h x (by simp [hx]))
      rw [natOfDigits_cons]
      have : 10 ^ (c :: t).length = 10 * 10 ^ t.length := by
        simp [List.length_cons, Nat.pow_succ]; ring
      rw [this]
      nlinarith

theorem natOfDigits_replicate_zero (k : Nat) (l : List Char) :
    natOfDigits (List.replicate k '0' ++ l) = natOfDigits l := by
  induction k with
  | zero => simp
  | succ k ih =>
      simp only [List.replicate_succ, List.cons_append]
      rw [natOfDigits_cons, ih]
      simp [digitToNat]

theorem natToDigitsAux_suffix (fuel n : Nat) (acc : List Char) :
    ∃ D, natToDigitsAux fuel n acc = D ++ acc := by
  induction fuel generalizing n acc with
  | zero => exact ⟨[], rfl⟩
  | succ fuel ih =>
      by_cases h : n < 10
      · exact ⟨[digitChar n], by simp [natToDigitsAux, h]⟩
      · obtain ⟨D, hD⟩ := ih (n / 10) (digitChar (n % 10) :: acc)
        refine ⟨D ++ [digitChar (n % 10)], ?_⟩
        simp [natToDigitsAux, h, hD]

theorem natToDigitsAux_digits (fuel n : Nat) (acc : List Char)
    (hacc : ∀ c ∈ acc, isDig c = true) :
    ∀ c ∈ natToDigitsAux fuel n acc, isDig c = true := by
  induction fuel generalizing n acc with
  | zero => exact hacc
  | succ fuel ih =>
      by_cases h : n < 10
      · simp only [natToDigitsAux, if_pos h]
        intro c hc
        rcases List.mem_cons.mp hc with hc | hc
        · exact hc ▸ isDig_digitChar h
        · exact hacc c hc
      · simp only [natToDigitsAux, if_neg h]
        refine ih (n / 10) (digitChar (n % 10) :: acc) ?_
        intro c hc
        rcases List.mem_cons.mp hc with hc | hc
        · exact hc ▸ isDig_digitChar (Nat.mod_lt _ (by omega))
        · exact hacc c hc

theorem natOfDigits_natToDigitsAux (fuel : Nat) :
    ∀ n acc, n < 10 ^ fuel →
      natOfDigits (natToDigitsAux fuel n acc)
        = n * 10 ^ acc.length + natOfDigits acc := by
  induction fuel with
  | zero =>
      intro n acc hn
      simp only [Nat.pow_zero, Nat.lt_one_iff] at hn
      subst hn
      simp [natToDigitsAux]
  | succ fuel ih =>
      intro n acc hn
      by_cases h : n < 10
      · simp only [natToDigitsAux, if_pos h]
        rw [natOfDigits_cons, digitToNat_digitChar h]
      · simp only [natToDigitsAux, if_neg h]
        have hdiv : n / 10 < 10 ^ fuel := by
          have h10 : (10 : Nat) ^ (fuel + 1) = 10 ^ fuel * 10 := by ring
          rw [h10] at hn
          exact Nat.div_lt_of_lt_mul (by omega)
        rw [ih (n / 10) (digitChar (n % 10) :: acc) hdiv]
        rw [natOfDigits_cons, digitToNat_digitChar (Nat.mod_lt _ (by omega))]
        simp only [List.length_cons, Nat.pow_succ]
        conv_rhs => rw [show n = 10 * (n / 10) + n % 10 from by omega]
        ring

theorem natOfDigits_natToDigits (n : Nat) : natOfDigits (natToDigits n) = n := by
  have hb : n < 10 ^ (n + 1) := by
    calc n < 2 ^ n := Nat.lt_two_pow n
    _ ≤ 10 ^ n := Nat.pow_le_pow_left (by omega) n
    _ ≤ 10 ^ (n + 1) := Nat.pow_le_pow_right (by omega) (by omega)
  have := natOfDigits_natToDigitsAux (n + 1) n [] hb
  simpa [natToDigits, natOfDigits] using this

theorem natToDigits_ne_nil (n : Nat) : natToDigits n ≠ [] := by
  unfold natToDigits natToDigitsAux
  by_cases h : n < 10
  · simp [h]
  · simp only [if_neg h]
    obtain ⟨D, hD⟩ := natToDigitsAux_suffix n (n / 10) [digitChar (n % 10)]
    simp [hD]

theorem natToDigits_all_digits (n : Nat) :
    ∀ c ∈ natToDigits n, isDig c = true :=
  natToDigitsAux_digits (n + 1) n [] (by simp)

theorem zfill_length (l : List Char) (w : Nat) :
    (zfill l w).length = max w l.length := by
  simp only [zfill, List.length_append, List.length_replicate]
  omega

theorem natOfDigits_zfill (l : List Char) (w : Nat) :
    natOfDigits (zfill l w) = natOfDigits l :=
  natOfDigits_replicate_zero _ _

theorem zfill_all_digits (l : List Char) (w : Nat)
    (h : ∀ c ∈ l, isDig c = true) : ∀ c ∈ zfill l w, isDig c = true := by
  intro c hc
  rcases List.mem_append.mp hc with hc | hc
  · rw [List.eq_of_mem_replicate hc]; decide
  · exact h c hc

theorem zfill_ne_nil (l : List Char) (w : Nat) (h : l ≠ []) : zfill l w ≠ [] := by
  simp [zfill, h]

/-! ### Properties of digit runs and first-occurrence replacement -/

theorem digitRunsAux_eq_nil_iff (s : List Char) :
    ∀ acc, digitRunsAux s acc = [] ↔ acc = [] ∧ s.all (fun c => !isDig c) = true := by
  induction s with
  | nil =>
      intro acc
      cases acc <;> simp [digitRunsAux]
  | cons c cs ih =>
      intro acc
      by_cases h : isDig c
      · simp only [digitRunsAux, if_pos h]
        rw [ih (c :: acc)]
        simp [h]
      · simp only [digitRunsAux, if_neg h, List.append_eq_nil]
        rw [ih []]
        cases acc <;> simp [h]

theorem digitRuns_eq_nil_iff (s : List Char) :
    digitRuns s = [] ↔ s.any isDig = false := by
  rw [digitRuns, digitRunsAux_eq_nil_iff]
  simp [List.all_eq_true, List.any_eq_false]

theorem digitRunsAux_mem (s : List Char) :
    ∀ acc r, (∀ c ∈ acc, isDig c = true) → r ∈ digitRunsAux s acc →
      r ≠ [] ∧ ∀ c ∈ r, isDig c = true := by
  induction s with
  | nil =>
      intro acc r hacc hr
      cases acc with
      | nil => simp [digitRunsAux] at hr
      | cons a as =>
          have hr' : r = (a :: as).reverse := by
            simpa [digitRunsAux] using hr
          subst hr'
          refine ⟨by simp, ?_⟩
          intro x hx
          exact hacc x (List.mem_reverse.mp hx)
  | cons c cs ih =>
      intro acc r hacc hr
      by_cases h : isDig c
      · rw [digitRunsAux, if_pos h] at hr
        refine ih (c :: acc) r ?_ hr
        intro x hx
        rcases List.mem_cons.mp hx with hx | hx
        · exact hx ▸ h
        · exact hacc x hx
      · rw [digitRunsAux, if_neg h] at hr
        rcases List.mem_append.mp hr with hr | hr
        · cases acc with
          | nil => simp at hr
          | cons a as =>
              have hr' : r = (a :: as).reverse := by simpa using hr
              subst hr'
              refine ⟨by simp, ?_⟩
              intro x hx
              exact hacc x (List.mem_reverse.mp hx)
        · exact ih [] r (by simp) hr

theorem digitRunsAux_infix (s : List Char) :
    ∀ acc r, r ∈ digitRunsAux s acc → ∃ p q, acc.reverse ++ s = p ++ r ++ q := by
  induction s with
  | nil =>
      intro acc r hr
      cases acc with
      | nil => simp [digitRunsAux] at hr
      | cons a as =>
          rcases List.mem_singleton.mp (by simpa [digitRunsAux] using hr) with h
          subst h
          exact ⟨[], [], by simp⟩
  | cons c cs ih =>
      intro acc r hr
      by_cases h : isDig c
      · rw [digitRunsAux, if_pos h] at hr
        obtain ⟨p, q, hpq⟩ := ih (c :: acc) r hr
        refine ⟨p, q, ?_⟩
        simpa using hpq
      · rw [digitRunsAux, if_neg h] at hr
        rcases List.mem_append.mp hr with hr | hr
        · cases acc with
          | nil => simp at hr
          | cons a as =>
              rcases List.mem_singleton.mp (by simpa using hr) with h'
              subst h'
              exact ⟨[], c :: cs, by simp⟩
        · obtain ⟨p, q, hpq⟩ := ih [] r hr
          refine ⟨acc.reverse ++ c :: p, q, ?_⟩
          simp only [List.reverse_nil, List.nil_append] at hpq
          simp [hpq]

theorem digitRuns_getLast?_spec (s r : List Char)
    (h : (digitRuns s).getLast? = some r) :
    r ≠ [] ∧ (∀ c ∈ r, isDig c = true) ∧ ∃ p q, s = p ++ r ++ q := by
  have hmem : r ∈ digitRuns s := List.mem_of_getLast?_eq_some h
  obtain ⟨hne, hdig⟩ := digitRunsAux_mem s [] r (by simp) hmem
  obtain ⟨p, q, hpq⟩ := digitRunsAux_infix s [] r hmem
  exact ⟨hne, hdig, p, q, by simpa using hpq⟩

theorem replaceFirst_of_occurs (pat rep : List Char) (hpat : pat ≠ []) :
    ∀ s : List Char, (∃ p q, s = p ++ pat ++ q) →
      ∃ p q, s = p ++ pat ++ q ∧ replaceFirst s pat rep = p ++ rep ++ q := by
  intro s
  induction s with
  | nil =>
      rintro ⟨p, q, hpq⟩
      exfalso
      have := congrArg List.length hpq
      simp at this
      exact hpat (List.eq_nil_of_length_eq_zero (by omega))
  | cons c cs ih =>
      rintro ⟨p, q, hpq⟩
      by_cases hpre : pat.isPrefixOf (c :: cs) = true
      · obtain ⟨t, ht⟩ := List.isPrefixOf_iff_prefix.mp hpre
        refine ⟨[], t, by simp [ht.symm], ?_⟩
        rw [replaceFirst, if_pos hpre]
        have hdrop : (c :: cs).drop pat.length = t := by
          rw [← ht]
          exact List.drop_left pat t
        simp [hdrop]
      · cases p with
        | nil =>
            exfalso
            apply hpre
            apply List.isPrefixOf_iff_prefix.mpr
            exact ⟨q, by simpa using hpq.symm⟩
        | cons p0 ptl =>
            have hc : c = p0 := by simpa using congrArg (List.head?) hpq
            have hcs : cs = ptl ++ pat ++ q := by simpa using congrArg (List.tail) hpq
            obtain ⟨p', q', hpq', hrep⟩ := ih ⟨ptl, q, hcs⟩
            refine ⟨c :: p', q', by simp [hpq'], ?_⟩
            rw [replaceFirst, if_neg hpre, hrep]
            simp

/-! ### The length-then-lexicographic strict order -/

theorem lexLt_irrefl (s : List Char) : lexLt s s = false := by
  induction s with
  | nil => rfl
  | cons c cs ih => simp [lexLt, ih]

theorem lexLt_trans :
    ∀ s t u : List Char, lexLt s t = true → lexLt t u = true → lexLt s u = true := by
  intro s
  induction s with
  | nil =>
      intro t u hst htu
      cases t with
      | nil => exact htu
      | cons b bs =>
          cases u with
          | nil => simp [lexLt] at htu
          | cons c cu => rfl
  | cons a as ih =>
      intro t u hst htu
      cases t with
      | nil => simp [lexLt] at hst
      | cons b bs =>
          cases u with
          | nil => simp [lexLt] at htu
          | cons c cu =>
              simp only [lexLt] at hst htu ⊢
              by_cases hab : a.toNat < b.toNat
              · by_cases hbc : b.toNat < c.toNat
                · simp [show a.toNat < c.toNat from by omega]
                · simp only [if_pos hab] at hst
                  simp only [if_neg hbc] at htu
                  by_cases hbc' : b.toNat = c.toNat
                  · simp [show a.toNat < c.toNat from by omega]
                  · simp [hbc'] at htu
              · simp only [if_neg hab] at hst
                by_cases hab' : a.toNat = b.toNat
                · simp only [if_pos hab'] at hst
                  by_cases hbc : b.toNat < c.toNat
                  · simp [show a.toNat < c.toNat from by omega]
                  · simp only [if_neg hbc] at htu
                    by_cases hbc' : b.toNat = c.toNat
                    · simp only [if_pos hbc'] at htu
                      have hac : a.toNat = c.toNat := by omega
                      simp [show ¬ a.toNat < c.toNat from by omega, hac,
                        ih bs cu hst htu]
                    · simp [hbc'] at htu
                · simp [hab'] at hst

theorem lexLt_append_left (p : List Char) :
    ∀ x y : List Char, lexLt (p ++ x) (p ++ y) = lexLt x y := by
  induction p with
  | nil => intro x y; rfl
  | cons c cs ih =>
      intro x y
      simp [lexLt, ih]

theorem lexLt_append_right :
    ∀ x y q : List Char, x.length = y.length → lexLt x y = true →
      lexLt (x ++ q) (y ++ q) = true := by
  intro x
  induction x with
  | nil =>
      intro y q hlen hxy
      have : y = [] := List.eq_nil_of_length_eq_zero hlen.symm
      subst this
      simp [lexLt_irrefl] at hxy
  | cons a as ih =>
      intro y q hlen hxy
      cases y with
      | nil => simp at hlen
      | cons b bs =>
          simp only [lexLt] at hxy
          simp only [List.cons_append, lexLt]
          by_cases hab : a.toNat < b.toNat
          · simp [hab]
          · simp only [if_neg hab] at hxy ⊢
            by_cases hab' : a.toNat = b.toNat
            · simp only [if_pos hab'] at hxy ⊢
              exact ih bs q (by simpa using hlen) hxy
            · simp [hab'] at hxy

theorem lexLt_of_digits_lt :
    ∀ x y : List Char, (∀ c ∈ x, isDig c = true) → (∀ c ∈ y, isDig c = true) →
      x.length = y.length → natOfDigits x < natOfDigits y → lexLt x y = true := by
  intro x
  induction x with
  | nil =>
      intro y hx hy hlen hval
      have : y = [] := List.eq_nil_of_length_eq_zero hlen.symm
      subst this
      simp [natOfDigits] at hval
  | cons a as ih =>
      intro y hx hy hlen hval
      cases y with
      | nil => simp at hlen
      | cons b bs =>
          have hlen' : as.length = bs.length := by simpa using hlen
          rw [natOfDigits_cons, natOfDigits_cons, hlen'] at hval
          have hda : digitToNat a ≤ 9 := digitToNat_le_nine (hx a (by simp))
          have hdb : digitToNat b ≤ 9 := digitToNat_le_nine (hy b (by simp))
          have hva : natOfDigits as < 10 ^ as.length :=
            natOfDigits_lt as (fun c hc => hx c (by simp [hc]))
          have hvb : natOfDigits bs < 10 ^ bs.length :=
            natOfDigits_lt bs (fun c hc => hy c (by simp [hc]))
          rw [hlen'] at hva
          simp only [lexLt]
          by_cases hab : a.toNat < b.toNat
          · simp [hab]
          · have haD : 48 ≤ a.toNat := by
              have := hx a (by simp)
              simp only [isDig, Bool.and_eq_true, decide_eq_true_eq] at this
              exact this.1
            have hbD : 48 ≤ b.toNat := by
              have := hy b (by simp)
              simp only [isDig, Bool.and_eq_true, decide_eq_true_eq] at this
              exact this.1
            have hge : digitToNat b ≤ digitToNat a := by
              simp only [digitToNat]; omega
            have heq : digitToNat a = digitToNat b := by nlinarith
            have hab' : a.toNat = b.toNat := by
              simp only [digitToNat] at heq; omega
            simp only [if_neg hab, if_pos hab']
            refine ih bs (fun c hc => hx c (by simp [hc]))
              (fun c hc => hy c (by simp [hc])) hlen' ?_
            nlinarith

theorem strLtP_irrefl (s : List Char) : ¬ strLtP s s := by
  simp [strLtP, lexLt_irrefl]

theorem strLtP_trans {s t u : List Char} (h1 : strLtP s t) (h2 : strLtP t u) :
    strLtP s u := by
  rcases h1 with h1 | ⟨h1e, h1l⟩
  · rcases h2 with h2 | ⟨h2e, h2l⟩
    · exact Or.inl (by omega)
    · exact Or.inl (by omega)
  · rcases h2 with h2 | ⟨h2e, h2l⟩
    · exact Or.inl (by omega)
    · exact Or.inr ⟨by omega, lexLt_trans s t u h1l h2l⟩

/-! ### The collision-retry recursion terminates within `sel.length + 1` steps -/

theorem stepName_eq (name : List Char) (incr : Nat) (r : List Char)
    (h : (digitRuns name).getLast? = some r) :
    stepName name incr
      = replaceFirst name r (zfill (natToDigits (natOfDigits r + incr)) r.length) := by
  rw [stepName, h]

theorem ginFuel_succ_none (fuel : Nat) (sel : List (List Char))
    (name : List Char) (incr : Nat) (h : (digitRuns name).getLast? = none) :
    ginFuel (fuel + 1) sel name incr = some name := by
  conv_lhs => rw [ginFuel]
  rw [h]

theorem ginFuel_succ_some (fuel : Nat) (sel : List (List Char))
    (name : List Char) (incr : Nat) (r : List Char)
    (h : (digitRuns name).getLast? = some r) :
    ginFuel (fuel + 1) sel name incr =
      (if stepName name incr ∈ sel then ginFuel fuel sel (stepName name incr) 1
       else some (stepName name incr)) := by
  conv_lhs => rw [ginFuel]
  rw [h, stepName_eq name incr r h]

theorem stepName_good (name : List Char) (incr : Nat) (h1 : 1 ≤ incr)
    (hd : digitRuns name ≠ []) :
    strLtP name (stepName name incr) ∧ (stepName name incr).any isDig = true := by
  obtain ⟨r, hlast⟩ : ∃ r, (digitRuns name).getLast? = some r := by
    cases hr : (digitRuns name).getLast? with
    | none => exact absurd (List.getLast?_eq_none_iff.mp hr) hd
    | some r => exact ⟨r, rfl⟩
  obtain ⟨hrne, hrdig, p, q, hocc⟩ := digitRuns_getLast?_spec name r hlast
  set d := zfill (natToDigits (natOfDigits r + incr)) r.length with hdDef
  obtain ⟨p0, q0, hsplit, hrep⟩ :=
    replaceFirst_of_occurs r d hrne name ⟨p, q, hocc⟩
  have hstep : stepName name incr = p0 ++ d ++ q0 := by
    rw [stepName_eq name incr r hlast, hrep]
  have hdval : natOfDigits d = natOfDigits r + incr := by
    rw [hdDef, natOfDigits_zfill, natOfDigits_natToDigits]
  have hddig : ∀ c ∈ d, isDig c = true :=
    zfill_all_digits _ _ (natToDigits_all_digits _)
  have hdne : d ≠ [] := zfill_ne_nil _ _ (natToDigits_ne_nil _)
  have hdlen : d.length = max r.length (natToDigits (natOfDigits r + incr)).length := by
    rw [hdDef, zfill_length]
  have hany : (stepName name incr).any isDig = true := by
    obtain ⟨c0, hc0⟩ := List.exists_mem_of_ne_nil d hdne
    rw [hstep, List.any_eq_true]
    exact ⟨c0, by simp [hc0], hddig c0 hc0⟩
  refine ⟨?_, hany⟩
  by_cases hlen : (natToDigits (natOfDigits r + incr)).length ≤ r.length
  · have hdr : d.length = r.length := by omega
    right
    refine ⟨?_, ?_⟩
    · rw [hstep, hsplit]
      simp only [List.length_append, hdr]
    · have h1' : lexLt r d = true := by
        refine lexLt_of_digits_lt r d hrdig hddig hdr.symm ?_
        omega
      have h2' : lexLt (r ++ q0) (d ++ q0) = true :=
        lexLt_append_right r d q0 hdr.symm h1'
      have h3' : lexLt (p0 ++ (r ++ q0)) (p0 ++ (d ++ q0)) = true := by
        rw [lexLt_append_left]
        exact h2'
      rw [hstep, hsplit]
      simpa using h3'
  · left
    rw [hstep, hsplit]
    simp only [List.length_append]
    omega

theorem length_filter_le_of_imp {α : Type} (l : List α) (p q : α → Bool)
    (himp : ∀ x, p x = true → q x = true) :
    (l.filter p).length ≤ (l.filter q).length := by
  induction l with
  | nil => simp
  | cons a t ih =>
      by_cases hp : p a = true
      · have hq : q a = true := himp a hp
        simp [List.filter_cons, hp, hq]
        omega
      · by_cases hq : q a = true
        · simp [List.filter_cons, hp, hq]
          omega
        · simp [List.filter_cons, hp, hq]
          omega

theorem length_filter_lt_of_imp {α : Type} (l : List α) (p q : α → Bool)
    (himp : ∀ x, p x = true → q x = true) (c : α) (hc : c ∈ l)
    (hqc : q c = true) (hpc : p c = false) :
    (l.filter p).length < (l.filter q).length := by
  induction l with
  | nil => simp at hc
  | cons a t ih =>
      rcases List.mem_cons.mp hc with rfl | hct
      · have hple := length_filter_le_of_imp t p q himp
        simp [List.filter_cons, hpc, hqc]
        omega
      · by_cases hp : p a = true
        · have hq : q a = true := himp a hp
          have := ih hct
          simp [List.filter_cons, hp, hq]
          omega
        · by_cases hq : q a = true
          · have := ih hct
            simp [List.filter_cons, hp, hq]
            omega
          · have := ih hct
            simp [List.filter_cons, hp, hq]
            omega

theorem ginFuel_aux (n : Nat) :
    ∀ (sel : List (List Char)) (name : List Char) (incr : Nat),
      1 ≤ incr → digitRuns name ≠ [] →
      (sel.filter (fun x => decide (strLtP name x))).length ≤ n →
      ∃ res, ginFuel (n + 1) sel name incr = some res ∧ res ∉ sel := by
  induction n with
  | zero =>
      intro sel name incr h1 hd hfl
      obtain ⟨r, hlast⟩ : ∃ r, (digitRuns name).getLast? = some r := by
        cases hr : (digitRuns name).getLast? with
        | none => exact absurd (List.getLast?_eq_none_iff.mp hr) hd
        | some r => exact ⟨r, rfl⟩
      by_cases hmem : stepName name incr ∈ sel
      · exfalso
        have hstr : strLtP name (stepName name incr) :=
          (stepName_good name incr h1 hd).1
        have hin : stepName name incr ∈
            sel.filter (fun x => decide (strLtP name x)) := by
          rw [List.mem_filter]
          exact ⟨hmem, by simpa using hstr⟩
        have := List.length_pos.mpr (List.ne_nil_of_mem hin)
        omega
      · exact ⟨stepName name incr, by
          rw [ginFuel_succ_some 0 sel name incr r hlast, if_neg hmem], hmem⟩
  | succ m ih =>
      intro sel name incr h1 hd hfl
      obtain ⟨r, hlast⟩ : ∃ r, (digitRuns name).getLast? = some r := by
        cases hr : (digitRuns name).getLast? with
        | none => exact absurd (List.getLast?_eq_none_iff.mp hr) hd
        | some r => exact ⟨r, rfl⟩
      by_cases hmem : stepName name incr ∈ sel
      · obtain ⟨hstr, hany⟩ := stepName_good name incr h1 hd
        have hd' : digitRuns (stepName name incr) ≠ [] := by
          intro hnil
          rw [(digitRuns_eq_nil_iff _).mp hnil] at hany
          exact Bool.false_ne_true hany
        have hlt : (sel.filter (fun x => decide (strLtP (stepName name incr) x))).length
            < (sel.filter (fun x => decide (strLtP name x))).length := by
          refine length_filter_lt_of_imp sel _ _ ?_ (stepName name incr) hmem
            (by simpa using hstr) (by simp [strLtP_irrefl])
          intro x hx
          simp only [decide_eq_true_eq] at hx ⊢
          exact strLtP_trans hstr hx
        obtain ⟨res, hres, hout⟩ := ih sel (stepName name incr) 1 (le_refl 1) hd'
          (by omega)
        refine ⟨res, ?_, hout⟩
        rw [ginFuel_succ_some (m + 1) sel name incr r hlast, if_pos hmem]
        exact hres
      · exact ⟨stepName name incr, by
          rw [ginFuel_succ_some (m + 1) sel name incr r hlast, if_neg hmem], hmem⟩

theorem ginFuel_sufficient (sel : List (List Char)) (name : List Char)
    (incr : Nat) (h1 : 1 ≤ incr) (hd : name.any isDig = true) :
    ∃ res, ginFuel (sel.length + 1) sel name incr = some res ∧ res ∉ sel := by
  refine ginFuel_aux sel.length sel name incr h1 ?_ (List.length_filter_le _ _)
  intro hnil
  rw [(digitRuns_eq_nil_iff _).mp hnil] at hd
  exact Bool.false_ne_true hd

/-! ### State lemmas for the command loops -/

theorem setName_self (σ : NameMap) (i : Nat) (n : List Char) :
    setName σ i n i = n := by
  simp [setName]

theorem setName_other (σ : NameMap) (i : Nat) (n : List Char) (j : Nat)
    (h : j ≠ i) : setName σ i n j = σ j := by
  simp [setName, h]

theorem preorderBone_eq (b : BoneT) : preorderBone b = b :: descendants b := by
  cases b
  rfl

theorem assignDescendants_frame (sel : List BoneT) (bid : Nat) :
    ∀ (ds : List BoneT) (j : Nat) (σ : NameMap) (x : Nat),
      x ∉ ds.map BoneT.id → assignDescendants sel bid ds j σ x = σ x := by
  intro ds
  induction ds with
  | nil => intro j σ x _; rfl
  | cons d rest ih =>
      intro j σ x hx
      simp only [List.map_cons, List.mem_cons, not_or] at hx
      rw [assignDescendants, ih (j + 1) _ x hx.2, setName_other _ _ _ _ hx.1]

theorem alphaLoop_nil (sel : List BoneT) (nn : List Char) (mlr : Bool)
    (i : Nat) (σ : NameMap) : alphaLoop sel nn mlr [] i σ = (.finished, σ) := rfl

theorem alphaLoop_cons (sel : List BoneT) (nn : List Char) (mlr : Bool)
    (b : BoneT) (rest : List BoneT) (i : Nat) (σ : NameMap) (h : i < 26) :
    alphaLoop sel nn mlr (b :: rest) i σ =
      alphaLoop sel nn mlr rest (i + 1)
        (assignDescendants sel b.id (descendants b) 0
          (setName σ b.id
            (if mlr then move_lr_to_end (seqName nn i) else seqName nn i))) := by
  rw [alphaLoop, if_pos h]

theorem alphaLoop_cons_oob (sel : List BoneT) (nn : List Char) (mlr : Bool)
    (b : BoneT) (rest : List BoneT) (i : Nat) (σ : NameMap) (h : ¬ i < 26) :
    alphaLoop sel nn mlr (b :: rest) i σ = (.indexError, σ) := by
  rw [alphaLoop, if_neg h]

theorem alphaLoop_frame (sel : List BoneT) (nn : List Char) (mlr : Bool) :
    ∀ (batch : List BoneT) (i : Nat) (σ : NameMap) (x : Nat),
      x ∉ batch.flatMap (fun b => (preorderBone b).map BoneT.id) →
      (alphaLoop sel nn mlr batch i σ).2 x = σ x := by
  intro batch
  induction batch with
  | nil => intro i σ x _; rfl
  | cons b rest ih =>
      intro i σ x hx
      rw [List.flatMap_cons, List.mem_append, not_or] at hx
      obtain ⟨hx1, hx2⟩ := hx
      rw [preorderBone_eq, List.map_cons, List.mem_cons, not_or] at hx1
      by_cases h : i < 26
      · rw [alphaLoop_cons sel nn mlr b rest i σ h, ih (i + 1) _ x hx2,
          assignDescendants_frame sel b.id (descendants b) 0 _ x hx1.2,
          setName_other _ _ _ _ hx1.1]
      · rw [alphaLoop_cons_oob sel nn mlr b rest i σ h]

theorem alphaLoop_status (sel : List BoneT) (nn : List Char) (mlr : Bool) :
    ∀ (batch : List BoneT) (i : Nat) (σ : NameMap),
      (alphaLoop sel nn mlr batch i σ).1 = .finished ∨
      (alphaLoop sel nn mlr batch i σ).1 = .indexError := by
  intro batch
  induction batch with
  | nil => intro i σ; exact Or.inl rfl
  | cons b rest ih =>
      intro i σ
      by_cases h : i < 26
      · rw [alphaLoop_cons sel nn mlr b rest i σ h]
        exact ih (i + 1) _
      · rw [alphaLoop_cons_oob sel nn mlr b rest i σ h]
        exact Or.inr rfl

theorem alphaLoop_finished (sel : List BoneT) (nn : List Char) (mlr : Bool) :
    ∀ (batch : List BoneT) (i : Nat) (σ : NameMap), i + batch.length ≤ 26 →
      (alphaLoop sel nn mlr batch i σ).1 = .finished := by
  intro batch
  induction batch with
  | nil => intro i σ _; rfl
  | cons b rest ih =>
      intro i σ hlen
      simp only [List.length_cons] at hlen
      have h : i < 26 := by omega
      rw [alphaLoop_cons sel nn mlr b rest i σ h]
      exact ih (i + 1) _ (by omega)

theorem alphaLoop_indexError (sel : List BoneT) (nn : List Char) (mlr : Bool) :
    ∀ (batch : List BoneT) (i : Nat) (σ : NameMap),
      26 < i + batch.length → i ≤ 26 →
      (alphaLoop sel nn mlr batch i σ).1 = .indexError := by
  intro batch
  induction batch with
  | nil =>
      intro i σ h1 h2
      exfalso
      simp only [List.length_nil] at h1
      omega
  | cons b rest ih =>
      intro i σ h1 h2
      simp only [List.length_cons] at h1
      by_cases h : i < 26
      · rw [alphaLoop_cons sel nn mlr b rest i σ h]
        exact ih (i + 1) _ (by omega) (by omega)
      · rw [alphaLoop_cons_oob sel nn mlr b rest i σ h]

theorem alphaLoop_names (sel : List BoneT) (nn : List Char) (mlr : Bool) :
    ∀ (batch : List BoneT) (i : Nat) (σ : NameMap),
      (batch.flatMap (fun b => (preorderBone b).map BoneT.id)).Nodup →
      i + batch.length ≤ 26 →
      ∀ k (hk : k < batch.length),
        (alphaLoop sel nn mlr batch i σ).2 (batch.get ⟨k, hk⟩).id
          = (if mlr then move_lr_to_end (seqName nn (i + k))
             else seqName nn (i + k)) := by
  intro batch
  induction batch with
  | nil =>
      intro i σ _ _ k hk
      simp at hk
  | cons b rest ih =>
      intro i σ hnd hlen k hk
      simp only [List.length_cons] at hlen
      have hi : i < 26 := by omega
      rw [List.flatMap_cons, List.nodup_append] at hnd
      obtain ⟨hnd1, hnd2, hdisj⟩ := hnd
      rw [alphaLoop_cons sel nn mlr b rest i σ hi]
      cases k with
      | zero =>
          have hbid1 : b.id ∈ (preorderBone b).map BoneT.id := by
            rw [preorderBone_eq]
            simp
          have hnotrest : b.id ∉ rest.flatMap (fun b => (preorderBone b).map BoneT.id) :=
            fun hmem => hdisj hbid1 hmem
          have hnotdesc : b.id ∉ (descendants b).map BoneT.id := by
            rw [preorderBone_eq, List.map_cons] at hnd1
            exact (List.nodup_cons.mp hnd1).1
          rw [show ((b :: rest).get ⟨0, hk⟩) = b from rfl]
          rw [alphaLoop_frame sel nn mlr rest (i + 1) _ b.id hnotrest,
            assignDescendants_frame sel b.id (descendants b) 0 _ b.id hnotdesc,
            setName_self]
          simp
      | succ k' =>
          have hk' : k' < rest.length := by
            simpa using hk
          rw [show ((b :: rest).get ⟨k' + 1, hk⟩) = rest.get ⟨k', hk'⟩ from rfl]
          rw [ih (i + 1) _ hnd2 (by omega) k' hk']
          have : i + 1 + k' = i + (k' + 1) := by omega
          rw [this]

/-! ### The sort comparison is total and transitive -/

theorem lexLe_total : ∀ s t : List Char, lexLe s t = true ∨ lexLe t s = true := by
  intro s
  induction s with
  | nil => intro t; exact Or.inl rfl
  | cons a as ih =>
      intro t
      cases t with
      | nil => exact Or.inr rfl
      | cons b bs =>
          simp only [lexLe]
          by_cases hab : a.toNat < b.toNat
          · exact Or.inl (by simp [hab])
          · by_cases hab' : a.toNat = b.toNat
            · rcases ih bs with h | h
              · exact Or.inl (by simp [hab, hab', h])
              · exact Or.inr (by simp [hab', h, show ¬ b.toNat < a.toNat from by omega])
            · exact Or.inr (by simp [show b.toNat < a.toNat from by omega])

theorem lexLe_trans :
    ∀ s t u : List Char, lexLe s t = true → lexLe t u = true → lexLe s u = true := by
  intro s
  induction s with
  | nil => intro t u _ _; rfl
  | cons a as ih =>
      intro t u hst htu
      cases t with
      | nil => simp [lexLe] at hst
      | cons b bs =>
          cases u with
          | nil => simp [lexLe] at htu
          | cons c cu =>
              simp only [lexLe] at hst htu ⊢
              by_cases hab : a.toNat < b.toNat
              · by_cases hbc : b.toNat < c.toNat
                · simp [show a.toNat < c.toNat from by omega]
                · simp only [if_neg hbc] at htu
                  by_cases hbc' : b.toNat = c.toNat
                  · simp [show a.toNat < c.toNat from by omega]
                  · simp [hbc'] at htu
              · simp only [if_neg hab] at hst
                by_cases hab' : a.toNat = b.toNat
                · simp only [if_pos hab'] at hst
                  by_cases hbc : b.toNat < c.toNat
                  · simp [show a.toNat < c.toNat from by omega]
                  · simp only [if_neg hbc] at htu
                    by_cases hbc' : b.toNat = c.toNat
                    · simp only [if_pos hbc'] at htu
                      have hac : a.toNat = c.toNat := by omega
                      simp [show ¬ a.toNat < c.toNat from by omega, hac,
                        ih bs cu hst htu]
                    · simp [hbc'] at htu
                · simp [hab'] at hst

theorem sortKey_total (ctx : Ctx) (root : BoneT) :
    ∀ a b : BoneT, sortKey ctx root a b ∨ sortKey ctx root b a := by
  intro a b
  exact lexLe_total _ _

theorem sortKey_trans (ctx : Ctx) (root : BoneT) :
    ∀ a b c : BoneT, sortKey ctx root a b → sortKey ctx root b c →
      sortKey ctx root a c := by
  intro a b c
  exact lexLe_trans _ _ _

/-! ### Unfolding the command handlers -/

theorem alphabetical_rename_not_edit (ctx : Ctx) (h : ctx.isEditMode = false) :
    alphabetical_rename ctx = ⟨.noneRet, ctx.names, []⟩ := by
  rw [alphabetical_rename, h]
  rfl

theorem alphabetical_rename_empty (ctx : Ctx) (hmode : ctx.isEditMode = true)
    (h : ctx.new_name_value.isEmpty = true) :
    alphabetical_rename ctx = ⟨.cancelled, ctx.names, [msgEmptyName]⟩ := by
  rw [alphabetical_rename, hmode, if_pos rfl, if_pos h]

theorem alphabetical_rename_no_active (ctx : Ctx) (hmode : ctx.isEditMode = true)
    (hnn : ctx.new_name_value.isEmpty = false) (hact : ctx.active_bone = none) :
    alphabetical_rename ctx = ⟨.cancelled, ctx.names, [msgNoActive]⟩ := by
  rw [alphabetical_rename, hmode, if_pos rfl, hnn, hact]
  rfl

theorem alphabetical_rename_run (ctx : Ctx) (root : BoneT)
    (hmode : ctx.isEditMode = true) (hnn : ctx.new_name_value.isEmpty = false)
    (hact : ctx.active_bone = some root) :
    alphabetical_rename ctx =
      ⟨(alphaLoop ctx.selected_bones ctx.new_name_value ctx.moveLrFlag
          (alphaBatch ctx root) 0 (rootRenamed ctx root)).1,
       (alphaLoop ctx.selected_bones ctx.new_name_value ctx.moveLrFlag
          (alphaBatch ctx root) 0 (rootRenamed ctx root)).2, []⟩ := by
  rw [alphabetical_rename, hmode, if_pos rfl, hnn, hact]
  rfl

theorem rename_children_bones_not_edit (ctx : Ctx) (h : ctx.isEditMode = false) :
    rename_children_bones ctx = ⟨.noneRet, ctx.names, []⟩ := by
  rw [rename_children_bones, h]
  rfl

theorem rename_children_bones_invalid (ctx : Ctx) (hmode : ctx.isEditMode = true)
    (h : (ctx.new_name_value.isEmpty || !(ctx.new_name_value.any isDig)) = true) :
    rename_children_bones ctx = ⟨.cancelled, ctx.names, [msgEmptyOrNoDigit]⟩ := by
  rw [rename_children_bones, hmode, if_pos rfl, if_pos h]

theorem rename_children_bones_run (ctx : Ctx) (hmode : ctx.isEditMode = true)
    (h : (ctx.new_name_value.isEmpty || !(ctx.new_name_value.any isDig)) = false) :
    rename_children_bones ctx =
      ⟨.finished, rcbLoop ctx.selected_bones ctx.new_name_value
          ctx.selected_bones ctx.names, []⟩ := by
  rw [rename_children_bones, hmode, if_pos rfl, h]
  rfl

/-! ### Helper facts about two-character suffixes -/

theorem isSuffixOf_concat_ne (x y : List Char) (cx cy : Char) (hne : cx ≠ cy) :
    (x ++ [cx]).isSuffixOf (y ++ [cy]) = false := by
  rw [Bool.eq_false_iff]
  intro h
  obtain ⟨t, ht⟩ := List.isSuffixOf_iff_suffix.mp h
  have hlast := congrArg List.getLast? ht
  rw [← List.append_assoc, List.getLast?_concat, List.getLast?_concat] at hlast
  exact hne (by simpa using hlast)

theorem take_concat_two (t : List Char) (a b : Char) :
    (t ++ [a, b]).take ((t ++ [a, b]).length - 2) = t := by
  have h2 : (t ++ [a, b]).length - 2 = t.length := by
    simp
  rw [h2]
  exact List.take_left t [a, b]

theorem swap_lr_end_L (t : List Char) :
    swap_lr_in_name (t ++ "_L".toList) = t ++ "_R".toList := by
  have hs : ("_L".toList).isSuffixOf (t ++ "_L".toList) = true :=
    List.isSuffixOf_iff_suffix.mpr ⟨t, rfl⟩
  rw [swap_lr_in_name, if_pos hs]
  rw [show ("_L".toList : List Char) = ['_', 'L'] from rfl, take_concat_two]

theorem swap_lr_end_R (t : List Char) :
    swap_lr_in_name (t ++ "_R".toList) = t ++ "_L".toList := by
  have hnsL : ("_L".toList).isSuffixOf (t ++ "_R".toList) = false := by
    have h := isSuffixOf_concat_ne ['_'] (t ++ ['_']) 'L' 'R' (by decide)
    rw [show (['_'] ++ ['L'] : List Char) = "_L".toList from rfl] at h
    rw [show ((t ++ ['_']) ++ ['R'] : List Char) = t ++ "_R".toList from
      (List.append_assoc t ['_'] ['R'])] at h
    exact h
  have hs : ("_R".toList).isSuffixOf (t ++ "_R".toList) = true :=
    List.isSuffixOf_iff_suffix.mpr ⟨t, rfl⟩
  rw [swap_lr_in_name, hnsL]
  rw [if_neg (by simp), if_pos hs]
  rw [show ("_R".toList : List Char) = ['_', 'R'] from rfl, take_concat_two]

theorem swap_lr_no_suffix (name : List Char)
    (hL : ("_L".toList).isSuffixOf name = false)
    (hR : ("_R".toList).isSuffixOf name = false) :
    swap_lr_in_name name = name := by
  rw [swap_lr_in_name, hL, hR]
  rfl

/-! ### Claim theorems -/

/-- C1: for a positive increment, when the candidate does not collide with
any selected bone's name, `get_incremented_name` parses the last digit run
as an integer, adds the increment, zero-pads to the run's original width,
and substitutes the result at the first left-to-right occurrence of the
run's digit substring; a name without digits (equivalently, with an empty
run list) is returned unchanged. -/
theorem C1_incremented_name_formula (sel : List (List Char)) (name : List Char)
    (incr : Nat) (hpos : 0 < incr) :
    (∀ rs r, digitRuns name = rs ++ [r] →
        replaceFirst name r (zfill (natToDigits (natOfDigits r + incr)) r.length) ∉ sel →
        get_incremented_name sel name incr
          = replaceFirst name r (zfill (natToDigits (natOfDigits r + incr)) r.length))
    ∧ (digitRuns name = [] → get_incremented_name sel name incr = name)
    ∧ (digitRuns name = [] ↔ name.any isDig = false) := by
  refine ⟨?_, ?_, digitRuns_eq_nil_iff name⟩
  · intro rs r hruns hnot
    have hlast : (digitRuns name).getLast? = some r := by
      rw [hruns]
      exact List.getLast?_concat rs
    rw [get_incremented_name, ginFuel_succ_some sel.length sel name incr r hlast,
      stepName_eq name incr r hlast, if_neg hnot]
    rfl
  · intro hnil
    have hlast : (digitRuns name).getLast? = none := by
      rw [hnil]
      rfl
    rw [get_incremented_name, ginFuel_succ_none sel.length sel name incr hlast]
    rfl

theorem C1_incremented_name_formula_witness :
    get_incremented_name [] ("bone_003".toList) 2 = "bone_005".toList
    ∧ get_incremented_name [] ("bone".toList) 1 = "bone".toList := by
  constructor
  · have h := (C1_incremented_name_formula [] ("bone_003".toList) 2 (by decide)).1
      [] ("003".toList) (by decide) (by decide)
    rw [h]
    decide
  · exact (C1_incremented_name_formula [] ("bone".toList) 1 (by decide)).2.1 (by decide)

/-- C4: for a name containing a digit, a positive increment and any finite
selection, the generator terminates within `sel.length + 1` collision
retries and produces a name distinct from every selected bone's name; on a
collision it retries with increment 1 applied to the candidate, not the
original. -/
theorem C4_gin_terminates_unique (sel : List (List Char)) (name : List Char)
    (incr : Nat) (hpos : 1 ≤ incr) (hdig : name.any isDig = true) :
    (∃ res, ginFuel (sel.length + 1) sel name incr = some res ∧ res ∉ sel
      ∧ get_incremented_name sel name incr = res)
    ∧ (∀ fuel r, (digitRuns name).getLast? = some r → stepName name incr ∈ sel →
        ginFuel (fuel + 1) sel name incr = ginFuel fuel sel (stepName name incr) 1) := by
  constructor
  · obtain ⟨res, hres, hout⟩ := ginFuel_sufficient sel name incr hpos hdig
    refine ⟨res, hres, hout, ?_⟩
    rw [get_incremented_name, hres]
    rfl
  · intro fuel r hlast hmem
    rw [ginFuel_succ_some fuel sel name incr r hlast, if_pos hmem]

theorem C4_gin_terminates_unique_witness :
    ∃ res, ginFuel 2 [("bone_02".toList)] ("bone_01".toList) 1 = some res
      ∧ res ∉ [("bone_02".toList)]
      ∧ get_incremented_name [("bone_02".toList)] ("bone_01".toList) 1 = res :=
  (C4_gin_terminates_unique [("bone_02".toList)] ("bone_01".toList) 1
    (by decide) (by decide)).1

/-- C2 (code bug): the claim and the operator's own description say a name
already ending in `_L`/`_R` is left unchanged, but the code appends the
suffix again without stripping it: `move_lr_to_end("arm_R")` evaluates to
`"arm_R_R"`, not `"arm_R"`. -/
theorem C2_move_lr_code_eval :
    move_lr_to_end ("arm_R".toList) = "arm_R_R".toList
    ∧ move_lr_to_end ("arm_R".toList) ≠ "arm_R".toList := by
  constructor
  · decide
  · decide

/-- C7 counterexample: on a name with two `_L_` occurrences (and no
terminal suffix) the code removes both occurrences, while the claim's
"remove the first such occurrence" prescription would keep the second. -/
theorem C7_counterexample :
    move_lr_to_end ("x_L_y_L_z".toList) = "x_y_z_L".toList
    ∧ replaceFirst ("x_L_y_L_z".toList) ("_L_".toList) ("_".toList) ++ "_L".toList
        = "x_y_L_z_L".toList
    ∧ move_lr_to_end ("x_L_y_L_z".toList)
        ≠ replaceFirst ("x_L_y_L_z".toList) ("_L_".toList) ("_".toList) ++ "_L".toList := by
  refine ⟨by decide, by decide, by decide⟩

/-- C7 (amended): for a name not ending in `_L` or `_R`, if `_L_` occurs
anywhere the function removes every non-overlapping occurrence of `_L_`
left to right (each collapsed to a single `_`) and appends `_L`;
otherwise, if `_R_` occurs, it does the same with `_R`; only one of the
two suffixes is handled per call, `_L` checked before `_R`; with neither
present the name is unchanged. -/
theorem C7_move_lr_amended (name : List Char)
    (hL : ("_L".toList).isSuffixOf name = false)
    (hR : ("_R".toList).isSuffixOf name = false) :
    (containsSub ("_L_".toList) name = true →
        move_lr_to_end name
          = replaceAll ("_L_".toList) ("_".toList) name ++ "_L".toList)
    ∧ (containsSub ("_L_".toList) name = false →
        containsSub ("_R_".toList) name = true →
        move_lr_to_end name
          = replaceAll ("_R_".toList) ("_".toList) name ++ "_R".toList)
    ∧ (containsSub ("_L_".toList) name = false →
        containsSub ("_R_".toList) name = false →
        move_lr_to_end name = name) := by
  refine ⟨?_, ?_, ?_⟩
  · intro h1
    have hc : (containsSub ("_L_".toList) name
        || ("_L".toList).isSuffixOf name) = true := by
      rw [h1, Bool.true_or]
    rw [move_lr_to_end, if_pos hc]
  · intro h1 h2
    have hc1 : ¬ ((containsSub ("_L_".toList) name
        || ("_L".toList).isSuffixOf name) = true) := by
      rw [h1, hL]
      simp
    have hc2 : (containsSub ("_R_".toList) name
        || ("_R".toList).isSuffixOf name) = true := by
      rw [h2, Bool.true_or]
    rw [move_lr_to_end, if_neg hc1, if_pos hc2]
  · intro h1 h2
    have hc1 : ¬ ((containsSub ("_L_".toList) name
        || ("_L".toList).isSuffixOf name) = true) := by
      rw [h1, hL]
      simp
    have hc2 : ¬ ((containsSub ("_R_".toList) name
        || ("_R".toList).isSuffixOf name) = true) := by
      rw [h2, hR]
      simp
    rw [move_lr_to_end, if_neg hc1, if_neg hc2]

theorem C7_move_lr_amended_witness :
    move_lr_to_end ("arm_L_upper".toList) = "arm_upper_L".toList := by
  have h := (C7_move_lr_amended ("arm_L_upper".toList) (by decide) (by decide)).1
    (by decide)
  rw [h]
  decide

/-- C9: `swap_lr_in_name` turns a trailing `_L` into `_R`, a trailing
`_R` into `_L`, and leaves any other string unchanged. -/
theorem C9_swap_lr_spec (name : List Char) :
    (∀ t, name = t ++ "_L".toList → swap_lr_in_name name = t ++ "_R".toList)
    ∧ (∀ t, name = t ++ "_R".toList → swap_lr_in_name name = t ++ "_L".toList)
    ∧ (("_L".toList).isSuffixOf name = false →
        ("_R".toList).isSuffixOf name = false → swap_lr_in_name name = name) := by
  refine ⟨?_, ?_, swap_lr_no_suffix name⟩
  · intro t ht
    rw [ht]
    exact swap_lr_end_L t
  · intro t ht
    rw [ht]
    exact swap_lr_end_R t

theorem C9_swap_lr_spec_witness :
    swap_lr_in_name ("hand_L".toList) = "hand_R".toList
    ∧ swap_lr_in_name ("hand".toList) = "hand".toList := by
  constructor
  · have h := (C9_swap_lr_spec ("hand_L".toList)).1 ("hand".toList) (by decide)
    rw [h]
    decide
  · exact (C9_swap_lr_spec ("hand".toList)).2.2 (by decide) (by decide)

/-- C10: `swap_lr_in_name` is an involution, so applying the swap-in-field
command twice restores the input text. -/
theorem C10_swap_lr_involutive (name : List Char) :
    swap_lr_in_name (swap_lr_in_name name) = name := by
  cases hL : ("_L".toList).isSuffixOf name with
  | true =>
      obtain ⟨t, ht⟩ := List.isSuffixOf_iff_suffix.mp hL
      rw [← ht, swap_lr_end_L, swap_lr_end_R]
  | false =>
      cases hR : ("_R".toList).isSuffixOf name with
      | true =>
          obtain ⟨t, ht⟩ := List.isSuffixOf_iff_suffix.mp hR
          rw [← ht, swap_lr_end_R, swap_lr_end_L]
      | false =>
          rw [swap_lr_no_suffix name hL hR, swap_lr_no_suffix name hL hR]

/-- C8: in edit mode, when the input name is empty or contains no digit,
the incremental-rename command reports an error and is cancelled without
touching any bone's name. -/
theorem C8_rcb_validation (ctx : Ctx) (hmode : ctx.isEditMode = true)
    (h : ctx.new_name_value = [] ∨ ctx.new_name_value.any isDig = false) :
    rename_children_bones ctx = ⟨.cancelled, ctx.names, [msgEmptyOrNoDigit]⟩ := by
  apply rename_children_bones_invalid ctx hmode
  rcases h with h | h
  · rw [h]
    rfl
  · rw [h]
    simp

theorem C8_rcb_validation_witness :
    rename_children_bones exCtx8 = ⟨.cancelled, exCtx8.names, [msgEmptyOrNoDigit]⟩ :=
  C8_rcb_validation exCtx8 rfl (Or.inl rfl)

/-- C6: in the alphabetical-rename command, a missing active bone reports
an error and cancels with no mutation; when the "only root bone selected"
flag is set the active bone's final name is `<input>_Root`, suffix-moved
when the move flag is set; and the batch processed afterwards is always
the sorted list of the active bone's direct children, never the raw
selection. -/
theorem C6_alpha_root_handling (ctx : Ctx) (hmode : ctx.isEditMode = true)
    (hnn : ctx.new_name_value.isEmpty = false) :
    (ctx.active_bone = none →
        alphabetical_rename ctx = ⟨.cancelled, ctx.names, [msgNoActive]⟩)
    ∧ (∀ root, ctx.active_bone = some root →
        alphabetical_rename ctx =
          ⟨(alphaLoop ctx.selected_bones ctx.new_name_value ctx.moveLrFlag
              (alphaBatch ctx root) 0 (rootRenamed ctx root)).1,
           (alphaLoop ctx.selected_bones ctx.new_name_value ctx.moveLrFlag
              (alphaBatch ctx root) 0 (rootRenamed ctx root)).2, []⟩
          ∧ (alphaBatch ctx root).Perm root.children)
    ∧ (∀ root, ctx.active_bone = some root →
        ctx.only_root_bone_selected = true →
        root.id ∉ root.children.flatMap (fun b => (preorderBone b).map BoneT.id) →
        (alphabetical_rename ctx).names root.id
          = (if ctx.moveLrFlag
             then move_lr_to_end (ctx.new_name_value ++ "_Root".toList)
             else ctx.new_name_value ++ "_Root".toList)) := by
  refine ⟨?_, ?_, ?_⟩
  · intro hact
    exact alphabetical_rename_no_active ctx hmode hnn hact
  · intro root hact
    exact ⟨alphabetical_rename_run ctx root hmode hnn hact,
      List.perm_insertionSort _ _⟩
  · intro root hact honly hroot
    have hperm : (alphaBatch ctx root).Perm root.children :=
      List.perm_insertionSort _ _
    have hnot : root.id ∉
        (alphaBatch ctx root).flatMap (fun b => (preorderBone b).map BoneT.id) := by
      intro hmem
      rw [List.mem_flatMap] at hmem
      obtain ⟨b, hb, hxb⟩ := hmem
      exact hroot (List.mem_flatMap.mpr ⟨b, hperm.mem_iff.mp hb, hxb⟩)
    rw [alphabetical_rename_run ctx root hmode hnn hact]
    show (alphaLoop ctx.selected_bones ctx.new_name_value ctx.moveLrFlag
        (alphaBatch ctx root) 0 (rootRenamed ctx root)).2 root.id = _
    rw [alphaLoop_frame _ _ _ _ _ _ _ hnot, rootRenamed, if_pos honly, setName_self]

theorem C6_alpha_root_handling_witness :
    alphabetical_rename exCtx6 = ⟨.cancelled, exCtx6.names, [msgNoActive]⟩ :=
  (C6_alpha_root_handling exCtx6 rfl (by decide)).1 rfl

/-- C5: with validation passed and at most 26 direct children with
distinct subtree ids, the alphabetical command finishes; the batch is a
permutation of the root's direct children sorted ascending by current
name; the batch bone at sorted position `k` ends with the sequential name
`<input>_<letter k>_00` (suffix-relocated when the flag is set); and each
batch bone's descendants are assigned, in traversal order, names produced
by the incremented-name generator with 1-based index applied to the
bone's own current (new) name. -/
theorem C5_alpha_assignment (ctx : Ctx) (root : BoneT)
    (hmode : ctx.isEditMode = true) (hnn : ctx.new_name_value.isEmpty = false)
    (hact : ctx.active_bone = some root)
    (hnd : (root.children.flatMap (fun b => (preorderBone b).map BoneT.id)).Nodup)
    (hlen : root.children.length ≤ 26) :
    (alphabetical_rename ctx).status = .finished
    ∧ (alphaBatch ctx root).Perm root.children
    ∧ (alphaBatch ctx root).Pairwise (sortKey ctx root)
    ∧ (∀ k (hk : k < (alphaBatch ctx root).length),
        (alphabetical_rename ctx).names ((alphaBatch ctx root).get ⟨k, hk⟩).id
          = (if ctx.moveLrFlag then move_lr_to_end (seqName ctx.new_name_value k)
             else seqName ctx.new_name_value k))
    ∧ (∀ sel bid (d : BoneT) rest j σ, assignDescendants sel bid (d :: rest) j σ
        = assignDescendants sel bid rest (j + 1)
            (setName σ d.id
              (get_incremented_name (selectedNames sel σ) (σ bid) (j + 1)))) := by
  have hperm : (alphaBatch ctx root).Perm root.children :=
    List.perm_insertionSort _ _
  have hblen : (alphaBatch ctx root).length = root.children.length :=
    hperm.length_eq
  have hnd' : ((alphaBatch ctx root).flatMap
      (fun b => (preorderBone b).map BoneT.id)).Nodup := by
    have hp : ((alphaBatch ctx root).flatMap (fun b => (preorderBone b).map BoneT.id)).Perm
        (root.children.flatMap (fun b => (preorderBone b).map BoneT.id)) :=
      List.Perm.flatMap_right _ hperm
    exact hp.nodup_iff.mpr hnd
  refine ⟨?_, hperm, ?_, ?_, ?_⟩
  · rw [alphabetical_rename_run ctx root hmode hnn hact]
    exact alphaLoop_finished _ _ _ _ 0 _ (by omega)
  · letI : IsTotal BoneT (sortKey ctx root) := ⟨sortKey_total ctx root⟩
    letI : IsTrans BoneT (sortKey ctx root) := ⟨sortKey_trans ctx root⟩
    exact List.sorted_insertionSort _ _
  · intro k hk
    rw [alphabetical_rename_run ctx root hmode hnn hact]
    show (alphaLoop ctx.selected_bones ctx.new_name_value ctx.moveLrFlag
        (alphaBatch ctx root) 0 (rootRenamed ctx root)).2 _ = _
    have := alphaLoop_names ctx.selected_bones ctx.new_name_value ctx.moveLrFlag
      (alphaBatch ctx root) 0 (rootRenamed ctx root) hnd' (by omega) k hk
    simpa using this
  · intro sel bid d rest j σ
    rfl

theorem C5_alpha_assignment_witness :
    (alphabetical_rename exCtx5).status = .finished
    ∧ (alphabetical_rename exCtx5).names 2 = "finger_A_00".toList
    ∧ (alphabetical_rename exCtx5).names 3 = "finger_B_00".toList
    ∧ (alphabetical_rename exCtx5).names 1 = "finger_C_00".toList :=
  ⟨(C5_alpha_assignment exCtx5 exRoot5 rfl (by decide) rfl (by decide) (by decide)).1,
   by decide, by decide, by decide⟩

/-- C3 (amended): every validation failure is detected strictly before
any name assignment, so a cancelled command leaves every name unchanged,
and the incremental command never aborts mid-loop; the alphabetical
command completes every rename when the batch has at most 26 entries, but
with more than 26 direct children it stops mid-loop on the 27th entry
(Python's `IndexError` on `string.ascii_uppercase[i]`) after the first 26
batch bones were already renamed — a partial mutation. -/
theorem C3_all_or_nothing_amended (ctx : Ctx) :
    ((rename_children_bones ctx).status ≠ .indexError)
    ∧ ((rename_children_bones ctx).status = .cancelled →
        (rename_children_bones ctx).names = ctx.names)
    ∧ ((alphabetical_rename ctx).status = .cancelled →
        (alphabetical_rename ctx).names = ctx.names)
    ∧ (∀ root, ctx.isEditMode = true → ctx.new_name_value.isEmpty = false →
        ctx.active_bone = some root → root.children.length ≤ 26 →
        (alphabetical_rename ctx).status = .finished)
    ∧ (∀ root, ctx.isEditMode = true → ctx.new_name_value.isEmpty = false →
        ctx.active_bone = some root → 26 < root.children.length →
        (alphabetical_rename ctx).status = .indexError) := by
  refine ⟨?_, ?_, ?_, ?_, ?_⟩
  · cases hm : ctx.isEditMode with
    | false =>
        rw [rename_children_bones_not_edit ctx hm]
        simp
    | true =>
        cases hv : (ctx.new_name_value.isEmpty || !(ctx.new_name_value.any isDig)) with
        | true =>
            rw [rename_children_bones_invalid ctx hm hv]
            simp
        | false =>
            rw [rename_children_bones_run ctx hm hv]
            simp
  · intro hc
    cases hm : ctx.isEditMode with
    | false =>
        rw [rename_children_bones_not_edit ctx hm]
    | true =>
        cases hv : (ctx.new_name_value.isEmpty || !(ctx.new_name_value.any isDig)) with
        | true =>
            rw [rename_children_bones_invalid ctx hm hv]
        | false =>
            exfalso
            rw [rename_children_bones_run ctx hm hv] at hc
            simp at hc
  · intro hc
    cases hm : ctx.isEditMode with
    | false =>
        rw [alphabetical_rename_not_edit ctx hm]
    | true =>
        cases hv : ctx.new_name_value.isEmpty with
        | true =>
            rw [alphabetical_rename_empty ctx hm hv]
        | false =>
            cases ha : ctx.active_bone with
            | none =>
                rw [alphabetical_rename_no_active ctx hm hv ha]
            | some root =>
                exfalso
                rw [alphabetical_rename_run ctx root hm hv ha] at hc
                rcases alphaLoop_status ctx.selected_bones ctx.new_name_value
                    ctx.moveLrFlag (alphaBatch ctx root) 0 (rootRenamed ctx root)
                  with hs | hs <;> rw [hs] at hc <;> simp at hc
  · intro root hm hv ha hlen
    rw [alphabetical_rename_run ctx root hm hv ha]
    have hblen : (alphaBatch ctx root).length = root.children.length :=
      (List.perm_insertionSort _ _).length_eq
    exact alphaLoop_finished _ _ _ _ 0 _ (by omega)
  · intro root hm hv ha hlen
    rw [alphabetical_rename_run ctx root hm hv ha]
    have hblen : (alphaBatch ctx root).length = root.children.length :=
      (List.perm_insertionSort _ _).length_eq
    exact alphaLoop_indexError _ _ _ _ 0 _ (by omega) (by omega)

theorem C3_all_or_nothing_amended_witness :
    (alphabetical_rename exCtx3).status = .finished :=
  (C3_all_or_nothing_amended exCtx3).2.2.2.1 exRoot3 rfl (by decide) rfl (by decide)

/-- C3 counterexample: with 27 direct children the alphabetical command
stops mid-loop (index error) having renamed the sorted-first child (id 1)
to `base_A_00` while the sorted-last child (id 9, named "9") keeps its
old name — a partial mutation, contradicting "never renames some batch
nodes and then stops". -/
theorem C3_counterexample :
    (alphabetical_rename exCtx27).status = .indexError
    ∧ (alphabetical_rename exCtx27).names 1 = "base_A_00".toList
    ∧ (alphabetical_rename exCtx27).names 9 = exCtx27.names 9
    ∧ (alphabetical_rename exCtx27).names 1 ≠ exCtx27.names 1 := by
  refine ⟨by decide, by decide, by decide, by decide⟩
